import Mathlib

/-!
# Job explorer widget (`script.js`)

A shallow embedding of the data loading, currency conversion and query logic of
`script.js`, followed by theorems about it.

Conventions of the embedding.

* A JavaScript string is a Lean `String` (a well-formed sequence of code points);
  `utf16Length` gives the value of its `.length` property.
* `String.prototype.toLowerCase` depends on the Unicode case tables; it is a parameter
  `toLowerCase : String → String` of every definition that uses it.
* An ordinary object created by `{}` is the list of its own properties in creation order.
  Its prototype is `Object.prototype`, so reading a key that is not an own property sees the
  members of `Object.prototype` (`protoMethodNames` and the accessor `__proto__`).
* HTML produced by the script is replaced by the structured data it is rendered from.
-/

namespace JobExplorer

/-! ## Strings -/

/-- Code points of the ECMAScript `WhiteSpace` and `LineTerminator` productions, that is the
characters stripped by `String.prototype.trim`. -/
def isTrimChar (c : Char) : Bool :=
  let n := c.toNat
  n == 0x09 || n == 0x0A || n == 0x0B || n == 0x0C || n == 0x0D || n == 0x20 || n == 0xA0 ||
  n == 0x1680 || (0x2000 ≤ n && n ≤ 0x200A) || n == 0x2028 || n == 0x2029 || n == 0x202F ||
  n == 0x205F || n == 0x3000 || n == 0xFEFF

/-- Removal of leading and trailing trim characters from a list of characters. -/
def trimChars (l : List Char) : List Char :=
  ((l.dropWhile isTrimChar).reverse.dropWhile isTrimChar).reverse

/-- The method `String.prototype.trim`. -/
def trim (s : String) : String := ⟨trimChars s.data⟩

/-- Pieces of a list of characters between occurrences of the separator; never empty. -/
def splitChars (sep : Char) : List Char → List (List Char)
  | [] => [[]]
  | c :: cs =>
    if c = sep then [] :: splitChars sep cs
    else
      match splitChars sep cs with
      | [] => [[c]]
      | piece :: pieces => (c :: piece) :: pieces

/-- The call `s.split(sep)` for a one-character separator. -/
def split (sep : Char) (s : String) : List String :=
  (splitChars sep s.data).map String.mk

/-- The property `s.length`: the number of UTF-16 code units of the string. -/
def utf16Length (s : String) : Nat :=
  (s.data.map (fun c => if c.toNat < 0x10000 then 1 else 2)).sum

/-- The call `hay.includes(needle)`. -/
def includes (hay needle : String) : Bool :=
  decide (needle.data <:+: hay.data)

/-! ## Objects -/

/-- Own properties of an ordinary object created by `{}`, in creation order. -/
abbrev Obj (α : Type) := List (String × α)

/-- Names of the function-valued properties of `Object.prototype`. -/
def protoMethodNames : List String :=
  ["constructor", "hasOwnProperty", "isPrototypeOf", "propertyIsEnumerable", "toLocaleString",
   "toString", "valueOf", "__defineGetter__", "__defineSetter__", "__lookupGetter__",
   "__lookupSetter__"]

/-- Whether reading the key on an object without own properties finds a member of
`Object.prototype`. -/
def isProtoMember (k : String) : Bool :=
  k == "__proto__" || protoMethodNames.contains k

/-- Value of the own property named `k`, if there is one. -/
def ownGet {α : Type} : Obj α → String → Option α
  | [], _ => none
  | (k', v) :: rest, k => if k' = k then some v else ownGet rest k

/-- Own-property update: an existing own property keeps its position, a new one is created
last. -/
def ownPut {α : Type} : Obj α → String → α → Obj α
  | [], k, v => [(k, v)]
  | (k', v') :: rest, k, v => if k' = k then (k', v) :: rest else (k', v') :: ownPut rest k v

/-- The assignment `obj[k] = v` of a primitive value `v`. The key `__proto__` reaches the
setter inherited from `Object.prototype`, which ignores a value that is neither an object nor
`null`; every other key creates or updates an own property. -/
def assignProp {α : Type} (obj : Obj α) (k : String) (v : α) : Obj α :=
  if k = "__proto__" then obj else ownPut obj k v

/-- Value of a decimal digit string, `none` when some character is not a digit. -/
def digitsValue : List Char → Nat → Option Nat
  | [], acc => some acc
  | c :: cs, acc => if c.isDigit then digitsValue cs (10 * acc + (c.toNat - 48)) else none

/-- The array index a property key denotes: the key is the canonical decimal form of an
integer from 0 to 2^32 - 2. -/
def arrayIndex (k : String) : Option Nat :=
  match k.data with
  | [] => none
  | c :: cs =>
    if c = '0' ∧ cs ≠ [] then none
    else
      match digitsValue (c :: cs) 0 with
      | some n => if n < 2 ^ 32 - 1 then some n else none
      | none => none

/-- The call `Object.entries(obj)`: own properties whose key is an array index first, in
ascending numeric order, then the remaining ones in creation order. -/
def entries {α : Type} (obj : Obj α) : List (String × α) :=
  let indexed := obj.filterMap (fun p => (arrayIndex p.1).map (fun n => (n, p)))
  (indexed.insertionSort (fun a b => a.1 ≤ b.1)).map Prod.snd ++
    obj.filter (fun p => (arrayIndex p.1).isNone)

/-- A record: one parsed row, an object with string values. -/
abbrev Record := Obj String

/-- The expression `x || d` for a string or `undefined` value `x`. -/
def strOr (x : Option String) (d : String) : String :=
  match x with
  | some s => if s = "" then d else s
  | none => d

/-- String conversion of a string or `undefined` value (template literals, property keys). -/
def toStr (x : Option String) : String :=
  match x with
  | some s => s
  | none => "undefined"

/-! ## Tabular loader -/

/-- The `keys.reduce(...)` of `loadTSV` from header position `i` on: each key, trimmed, is
assigned `values[i]?.trim() || ''`. -/
def reduceKeys (values : List String) : Nat → List String → Record → Record
  | _, [], obj => obj
  | i, key :: keys, obj =>
    reduceKeys values (i + 1) keys
      (assignProp obj (trim key) (strOr ((values.get? i).map trim) ""))

/-- The record built from one data line. -/
def recordOfLine (keys : List String) (line : String) : Record :=
  reduceKeys (split '\t' line) 0 keys []

/-- The lines of a text: `text.trim().split('\n')`. -/
def linesOf (text : String) : List String := split '\n' (trim text)

/-- The parsing step of `loadTSV` on the fetched text. -/
def parseTSV (text : String) : List Record :=
  match linesOf text with
  | [] => []
  | header :: rest => rest.map (recordOfLine (split '\t' header))

/-- The function `loadTSV`; `none` stands for a failed fetch, which yields `[]`. -/
def loadTSV (fetched : Option String) : List Record :=
  match fetched with
  | some text => parseTSV text
  | none => []

/-! ## Currency converter -/

/-- The constant `currencyRates`; a rate is a decimal literal, stored as mantissa and number
of fractional digits (`1.08` is `(108, 2)`). -/
def currencyRates : Obj (Nat × Nat) :=
  [("EUR", (108, 2)), ("GBP", (127, 2)), ("USD", (1, 0)), ("CHF", (112, 2)), ("SEK", (93, 3)),
   ("NOK", (95, 3)), ("INR", (12, 3)), ("PLN", (26, 2)), ("CAD", (74, 2))]

/-- Number operations of the host that the widget relies on. -/
structure NumOps where
  /-- The type of JavaScript numbers. -/
  Num : Type
  /-- The global function `parseFloat` on a string. -/
  parseFloat : String → Num
  /-- The number denoted by a decimal literal, given as mantissa and fractional digits. -/
  ofDecimal : Nat → Nat → Num
  /-- Multiplication of numbers. -/
  mul : Num → Num → Num
  /-- The value `NaN`. -/
  nan : Num
  /-- The call `x.toLocaleString(undefined, options)` with `maximumFractionDigits: 0`. -/
  toLocaleString : Num → String

/-- Value of `currencyRates[fromCurrency] || 1`. -/
inductive RateVal where
  /-- A number, as a decimal literal. -/
  | number (mantissa digits : Nat)
  /-- A member of `Object.prototype` found through the prototype chain: a function, or for
  `__proto__` the object `Object.prototype`; truthy, and `NaN` when converted to a number. -/
  | inherited (key : String)
  deriving DecidableEq, Repr

/-- The expression `currencyRates[fromCurrency] || 1`. -/
def rateOrOne (fromCurrency : String) : RateVal :=
  match ownGet currencyRates fromCurrency with
  | some (m, d) => if m = 0 then RateVal.number 1 0 else RateVal.number m d
  | none => if isProtoMember fromCurrency then RateVal.inherited fromCurrency else RateVal.number 1 0

/-- The product `parseFloat(amount) * rate`; a rate that is not a number converts to `NaN`,
and a product with `NaN` is `NaN`. -/
def usdValue (ops : NumOps) (amount : String) (rate : RateVal) : ops.Num :=
  match rate with
  | RateVal.number m d => ops.mul (ops.parseFloat amount) (ops.ofDecimal m d)
  | RateVal.inherited _ => ops.nan

/-- The function `convertToUSD`. -/
def convertToUSD (ops : NumOps) (amount fromCurrency : String) : String :=
  "$" ++ ops.toLocaleString (usdValue ops amount (rateOrOne fromCurrency))

/-! ## Title histograms -/

/-- A truthy value read through the prototype chain of an object without that own property. -/
inductive Inherited where
  /-- The function `Object.prototype[name]`. -/
  | method (name : String)
  /-- The object `Object.prototype`, read through the accessor `__proto__`. -/
  | prototype
  deriving DecidableEq, Repr

/-- Values that `(count[t] || 0) + 1` can produce. -/
inductive CountVal where
  /-- A number. -/
  | num (n : Nat)
  /-- The string conversion of an inherited value followed by `ones` characters `1`. -/
  | text (base : Inherited) (ones : Nat)
  deriving DecidableEq, Repr

/-- Result of reading `count[t]`. -/
inductive CountRead where
  /-- An own property. -/
  | own (v : CountVal)
  /-- A member of `Object.prototype`. -/
  | inherited (v : Inherited)
  /-- No such property: `undefined`. -/
  | undefined
  deriving DecidableEq, Repr

/-- The property read `count[t]`. -/
def readCount (count : Obj CountVal) (t : String) : CountRead :=
  match ownGet count t with
  | some v => CountRead.own v
  | none =>
    if t = "__proto__" then CountRead.inherited Inherited.prototype
    else if protoMethodNames.contains t then CountRead.inherited (Inherited.method t)
    else CountRead.undefined

/-- The expression `(x || 0) + 1`: numeric addition on numbers, string concatenation once the
left operand is a string or an object. -/
def orZeroPlusOne : CountRead → CountVal
  | CountRead.own (CountVal.num n) => CountVal.num (n + 1)
  | CountRead.own (CountVal.text b k) => CountVal.text b (k + 1)
  | CountRead.inherited b => CountVal.text b 1
  | CountRead.undefined => CountVal.num 1

/-- The statement `count[t] = (count[t] || 0) + 1`. -/
def increment (count : Obj CountVal) (t : String) : Obj CountVal :=
  assignProp count t (orZeroPlusOne (readCount count t))

/-- Number conversion of a count value; `none` is `NaN`. -/
def CountVal.toNumber : CountVal → Option Int
  | CountVal.num n => some (n : Int)
  | CountVal.text _ _ => none

/-- The comparator `(a, b) => b[1] - a[1]`; `none` is `NaN`. -/
def compareFn (a b : String × CountVal) : Option Int :=
  match b.2.toNumber, a.2.toNumber with
  | some y, some x => some (y - x)
  | _, _ => none

/-- Whether the sort may leave `a` before `b`: the comparator result is not positive, `NaN`
counting as zero. -/
def keepsOrder (a b : String × CountVal) : Prop :=
  match compareFn a b with
  | some v => v ≤ 0
  | none => True

instance (a b : String × CountVal) : Decidable (keepsOrder a b) := by
  unfold keepsOrder; split <;> infer_instance

/-- The call `xs.sort((a, b) => b[1] - a[1])`, as a stable insertion sort. The language fixes
the result whenever the comparator is consistent, which is the case when every count is a
number: any stable sort then returns this list. When some count is a string the comparator
yields `NaN` and is not consistent; the language leaves the order to the engine, and the
list computed here is only one permutation, which an engine need not return. Statements
about the order are therefore made only for lists of numeric counts or of at most one
entry. -/
def sortByCount (xs : List (String × CountVal)) : List (String × CountVal) :=
  xs.insertionSort keepsOrder

/-- Failure of a script function. -/
inductive JSError where
  /-- A `TypeError`, thrown when a property of `undefined` is read. -/
  | typeError
  deriving DecidableEq, Repr

deriving instance DecidableEq for Except

/-- Data of the chart of `renderTopJobsChart`. -/
structure Chart where
  /-- The constant `top`. -/
  top : List (String × CountVal)
  /-- The constant `max`, that is `top[0][1]`. -/
  max : CountVal
  deriving DecidableEq, Repr

/-- The property key used by `renderTopJobsChart` for a job: `j.JobTitle` converted to a
string. -/
def chartKey (j : Record) : String := toStr (ownGet j "JobTitle")

/-- The object `count` of `renderTopJobsChart` after the `forEach`. -/
def chartCount (jobList : List Record) : Obj CountVal :=
  jobList.foldl (fun count j => increment count (chartKey j)) []

/-- The constant `top` of `renderTopJobsChart`. -/
def chartTop (jobList : List Record) : List (String × CountVal) :=
  (sortByCount (entries (chartCount jobList))).take 5

/-- The function `renderTopJobsChart`. -/
def renderTopJobsChart (jobList : List Record) : Except JSError Chart :=
  match (chartTop jobList).head? with
  | none => Except.error JSError.typeError
  | some first => Except.ok ⟨chartTop jobList, first.2⟩

/-! ## Query engine -/

section Query

variable (toLowerCase : String → String)

/-- The expression `(r.Country || '').trim().toLowerCase()`. -/
def normalizedCountryOf (r : Record) : String :=
  toLowerCase (trim (strOr (ownGet r "Country") ""))

/-- The filter `salaries.filter(s => (s.Country || '').trim().toLowerCase() ===
normalizedCountry)`, which `updateUI` and `renderFunFactsForCountry` both apply. -/
def matchedSalaries (salaries : List Record) (normalizedCountry : String) : List Record :=
  salaries.filter (fun s => decide (normalizedCountryOf toLowerCase s = normalizedCountry))

/-- The filter `countryJobs` of `renderFunFactsForCountry`. -/
def countryJobs (jobs : List Record) (normalizedCountry : String) : List Record :=
  jobs.filter (fun j => decide (normalizedCountryOf toLowerCase j = normalizedCountry))

/-- The filter `matchedJobs` of `updateUI`. -/
def matchedJobs (jobs : List Record) (normalizedCountry jobQuery : String) : List Record :=
  jobs.filter (fun j =>
    decide (normalizedCountryOf toLowerCase j = normalizedCountry) &&
      includes (toLowerCase (strOr (ownGet j "JobTitle") "")) jobQuery)

/-- The object `titleCount` of `renderFunFactsForCountry` after the `forEach`; the key of a
job is `j.JobTitle || ''`. -/
def titleCount (jobList : List Record) : Obj CountVal :=
  jobList.foldl (fun count j => increment count (strOr (ownGet j "JobTitle") "")) []

/-- The constant `mostCommonTitle`: element 0 of the sorted entries, `none` for `undefined`. -/
def mostCommonTitle (jobList : List Record) : Option (String × CountVal) :=
  (sortByCount (entries (titleCount jobList))).head?

/-- What `renderFunFactsForCountry` puts into the job results box. -/
inductive FunFacts where
  /-- The message "No job data for this country." -/
  | noJobData
  /-- The three facts followed by the chart. -/
  | facts (mostCommon : String × CountVal) (medianSalary currency : String) (total : Nat)
      (chart : Chart)
  deriving DecidableEq, Repr

/-- The function `renderFunFactsForCountry`, reading the globals `jobs` and `salaries`. -/
def renderFunFactsForCountry (jobs salaries : List Record) (normalizedCountry : String) :
    Except JSError FunFacts :=
  let cj := countryJobs toLowerCase jobs normalizedCountry
  if cj.length = 0 then Except.ok FunFacts.noJobData
  else
    let first := (matchedSalaries toLowerCase salaries normalizedCountry).head?
    let medianSalary := strOr (first.bind (fun s => ownGet s "MedianSalary")) "N/A"
    let currency := strOr (first.bind (fun s => ownGet s "CurrencyTicker")) ""
    match mostCommonTitle cj with
    | none => Except.error JSError.typeError
    | some m =>
      match renderTopJobsChart cj with
      | Except.error e => Except.error e
      | Except.ok chart => Except.ok (FunFacts.facts m medianSalary currency cj.length chart)

/-- Content of the salary box after `updateUI` passed the country guard. -/
inductive SalaryBox where
  /-- The message "No salary data for this country." -/
  | noData
  /-- The converted minimum and median salary and the currency ticker of the record. -/
  | range (min med ticker : String)
  deriving DecidableEq, Repr

/-- Content of the job results box in job-list mode. -/
inductive JobList where
  /-- The message "No matching jobs found." -/
  | noMatching
  /-- One card for each job, in order. -/
  | cards (shown : List Record)
  deriving DecidableEq, Repr

/-- The three ways `updateUI` returns. -/
inductive UIResult where
  /-- Return at `if (!country) return;`: both boxes are left cleared. -/
  | blank
  /-- Branch `jobQuery.length < 2`: the search event `(query, country)` is tracked and
  `renderFunFactsForCountry` runs. -/
  | summary (salary : SalaryBox) (tracked : String × String) (facts : Except JSError FunFacts)
  /-- Filtering and rendering of jobs. -/
  | jobList (salary : SalaryBox) (list : JobList)
  deriving DecidableEq, Repr

/-- The salary box rendered by `updateUI`. -/
def salaryBox (ops : NumOps) (salaries : List Record) (normalizedCountry : String) :
    SalaryBox :=
  match (matchedSalaries toLowerCase salaries normalizedCountry).head? with
  | some s =>
    let ticker := toStr (ownGet s "CurrencyTicker")
    SalaryBox.range (convertToUSD ops (toStr (ownGet s "MinSalary")) ticker)
      (convertToUSD ops (toStr (ownGet s "MedianSalary")) ticker) ticker
  | none => SalaryBox.noData

/-- The function `updateUI`, reading the globals `jobs` and `salaries`, the value `country`
of the country selector and the value `jobInput` of the job input. -/
def updateUI (ops : NumOps) (jobs salaries : List Record) (country jobInput : String) :
    UIResult :=
  let jobQuery := toLowerCase (trim jobInput)
  let normalizedCountry := toLowerCase (trim country)
  if country = "" then UIResult.blank
  else
    let box := salaryBox toLowerCase ops salaries normalizedCountry
    if utf16Length jobQuery < 2 then
      UIResult.summary box (jobQuery, country)
        (renderFunFactsForCountry toLowerCase jobs salaries normalizedCountry)
    else
      let matched := matchedJobs toLowerCase jobs normalizedCountry jobQuery
      if matched.length = 0 then UIResult.jobList box JobList.noMatching
      else UIResult.jobList box (JobList.cards (matched.take 10))

/-- The jobs displayed as cards by a call of `updateUI`. -/
def displayedJobs : UIResult → List Record
  | UIResult.jobList _ (JobList.cards shown) => shown
  | _ => []

/-- Whether the call went through the fun-facts branch. -/
def UIResult.isSummary : UIResult → Bool
  | UIResult.summary _ _ _ => true
  | _ => false

/-- Whether the call went through the job filtering branch. -/
def UIResult.isJobList : UIResult → Bool
  | UIResult.jobList _ _ => true
  | _ => false

/-- Whether the call ended with an uncaught exception. -/
def UIResult.failed : UIResult → Bool
  | UIResult.summary _ _ (Except.error _) => true
  | _ => false

end Query

/-! ## Instances used in examples -/

/-- Lower-casing of the ASCII letters only, an instance of the parameter `toLowerCase` that
agrees with the real method on ASCII strings. -/
def asciiLower (s : String) : String := ⟨s.data.map Char.toLower⟩

/-- A toy instance of the number operations: a number is `NaN` (`none`) or a natural number
of thousandths; `parseFloat` reads a digit string, formatting prints the integer part. Used
only to run examples. -/
def toyOps : NumOps where
  Num := Option Nat
  parseFloat := fun s => (digitsValue s.data 0).bind (fun n => if s = "" then none else some (1000 * n))
  ofDecimal := fun m d => some (m * 10 ^ (3 - d))
  mul := fun x y => x.bind (fun a => y.map (fun b => a * b / 1000))
  nan := none
  toLocaleString := fun x => match x with
    | some a => toString (a / 1000)
    | none => "NaN"

/-! ## Predicates used in the statements -/

/-- The salary box that a call of `updateUI` leaves, `none` when the call returned at the
country guard. -/
def UIResult.salary : UIResult → Option SalaryBox
  | UIResult.blank => none
  | UIResult.summary box _ _ => some box
  | UIResult.jobList box _ => some box

/-- A digit string without a leading zero. -/
def NoLeadingZero (l : List Char) : Prop := ∀ c cs, l = c :: cs → c ≠ '0'

/-- Numeric value of a count, zero for a string. -/
def CountVal.value : CountVal → Nat
  | CountVal.num n => n
  | CountVal.text _ _ => 0

/-- Own-property order of two distinct keys of an object whose properties were created in
the order of first occurrence in `ks`: array indices first, in ascending numeric order, then
the other keys in creation order. -/
def ownKeyBefore (ks : List String) (a b : String) : Prop :=
  match arrayIndex a, arrayIndex b with
  | some m, some n => m < n
  | some _, none => True
  | none, some _ => False
  | none, none => ks.indexOf a < ks.indexOf b

/-- What a histogram object holds after counting the keys `ks`, none of which is a member of
`Object.prototype`: one own property for each distinct key, holding the number of
occurrences, created in first-encounter order. -/
structure HistOK (ks : List String) (obj : Obj CountVal) : Prop where
  nodup : (obj.map Prod.fst).Nodup
  counts : ∀ p ∈ obj, p.2 = CountVal.num (ks.count p.1) ∧ p.1 ∈ ks
  complete : ∀ k ∈ ks, k ∈ obj.map Prod.fst
  order : obj.Pairwise (fun a b => ks.indexOf a.1 < ks.indexOf b.1)

/-! ## Lemmas on strings and lists -/

theorem splitChars_ne_nil (sep : Char) (l : List Char) : splitChars sep l ≠ [] := by
  induction l with
  | nil => simp [splitChars]
  | cons c cs ih =>
    unfold splitChars
    split
    · simp
    · split
      · simp
      · simp

theorem split_ne_nil (sep : Char) (s : String) : split sep s ≠ [] := by
  simp [split, splitChars_ne_nil]

theorem trimChars_eq_nil (l : List Char) (h : ∀ c ∈ l, isTrimChar c = true) :
    trimChars l = [] := by
  have : l.dropWhile isTrimChar = [] := List.dropWhile_eq_nil_iff.mpr h
  simp [trimChars, this]

theorem trimChars_append_blank (l ws : List Char) (h : ∀ c ∈ ws, isTrimChar c = true) :
    trimChars (l ++ ws) = trimChars l := by
  unfold trimChars
  rw [List.dropWhile_append]
  split
  · rename_i hempty
    have h1 : l.dropWhile isTrimChar = [] := by simpa using hempty
    have h2 : ws.dropWhile isTrimChar = [] := List.dropWhile_eq_nil_iff.mpr h
    simp [h1, h2]
  · rw [List.reverse_append, List.dropWhile_append_of_pos]
    intro a ha
    exact h a (List.mem_reverse.mp ha)

theorem trimChars_spec (l : List Char) :
    ∃ lead trail : List Char, l = lead ++ trimChars l ++ trail ∧
      (∀ c ∈ lead, isTrimChar c = true) ∧ (∀ c ∈ trail, isTrimChar c = true) ∧
      (∀ c, (trimChars l).head? = some c → isTrimChar c = false) ∧
      (∀ c, (trimChars l).getLast? = some c → isTrimChar c = false) := by
  have hd : l.dropWhile isTrimChar =
      trimChars l ++ ((l.dropWhile isTrimChar).reverse.takeWhile isTrimChar).reverse := by
    unfold trimChars
    rw [← List.reverse_append, List.takeWhile_append_dropWhile, List.reverse_reverse]
  refine ⟨l.takeWhile isTrimChar,
    ((l.dropWhile isTrimChar).reverse.takeWhile isTrimChar).reverse, ?_, ?_, ?_, ?_, ?_⟩
  · rw [List.append_assoc, ← hd, List.takeWhile_append_dropWhile]
  · intro c hc
    exact List.mem_takeWhile_imp hc
  · intro c hc
    exact List.mem_takeWhile_imp (List.mem_reverse.mp hc)
  · intro c hc
    have h1 : (l.dropWhile isTrimChar).head? = some c := by
      rw [hd, List.head?_append, hc]
      rfl
    have h2 := List.head?_dropWhile_not isTrimChar l
    rw [h1] at h2
    simpa using h2
  · intro c hc
    unfold trimChars at hc
    rw [List.getLast?_reverse] at hc
    have h2 := List.head?_dropWhile_not isTrimChar (l.dropWhile isTrimChar).reverse
    rw [hc] at h2
    simpa using h2

theorem splitChars_length (sep : Char) (l : List Char) :
    (splitChars sep l).length = l.count sep + 1 := by
  induction l with
  | nil => simp [splitChars]
  | cons c cs ih =>
    unfold splitChars
    by_cases hc : c = sep
    · simp [hc, ih]
    · have hne : (c == sep) = false := by simpa using hc
      rw [if_neg hc, List.count_cons, hne]
      cases hs : splitChars sep cs with
      | nil => exact absurd hs (splitChars_ne_nil sep cs)
      | cons piece pieces =>
        rw [hs] at ih
        simpa using ih

theorem intercalate_cons_cons {α : Type} (sep : α) (x y : List α) (ys : List (List α)) :
    [sep].intercalate (x :: y :: ys) = x ++ sep :: [sep].intercalate (y :: ys) := by
  simp [List.intercalate, List.intersperse]

theorem intercalate_splitChars (sep : Char) (l : List Char) :
    [sep].intercalate (splitChars sep l) = l := by
  induction l with
  | nil => simp [splitChars, List.intercalate]
  | cons c cs ih =>
    unfold splitChars
    cases hs : splitChars sep cs with
    | nil => exact absurd hs (splitChars_ne_nil sep cs)
    | cons piece pieces =>
      rw [hs] at ih
      by_cases hc : c = sep
      · rw [if_pos hc, intercalate_cons_cons, ih, hc]
        rfl
      · rw [if_neg hc]
        cases pieces with
        | nil =>
          have : piece = cs := by simpa [List.intercalate] using ih
          simp [List.intercalate, this]
        | cons q qs =>
          rw [intercalate_cons_cons] at ih
          rw [intercalate_cons_cons, List.cons_append, ih]

theorem splitChars_no_sep (sep : Char) (l : List Char) :
    ∀ piece ∈ splitChars sep l, sep ∉ piece := by
  induction l with
  | nil => simp [splitChars]
  | cons c cs ih =>
    unfold splitChars
    by_cases hc : c = sep
    · rw [if_pos hc]
      intro piece hp
      rcases List.mem_cons.mp hp with rfl | h
      · simp
      · exact ih piece h
    · rw [if_neg hc]
      cases hs : splitChars sep cs with
      | nil => exact absurd hs (splitChars_ne_nil sep cs)
      | cons p ps =>
        rw [hs] at ih
        intro piece hp
        rcases List.mem_cons.mp hp with rfl | h
        · intro hmem
          rcases List.mem_cons.mp hmem with e | h2
          · exact hc e.symm
          · exact ih p (List.mem_cons_self _ _) h2
        · exact ih piece (List.mem_cons_of_mem _ h)

theorem map_data_split (sep : Char) (s : String) :
    (split sep s).map String.data = splitChars sep s.data := by
  unfold split
  rw [List.map_map]
  conv_rhs => rw [← List.map_id (splitChars sep s.data)]
  apply List.map_congr_left
  intro a _
  rfl

theorem head?_filter_eq_find? {α : Type} (p : α → Bool) (l : List α) :
    (l.filter p).head? = l.find? p := by
  induction l with
  | nil => rfl
  | cons a l ih =>
    by_cases h : p a = true
    · simp [List.filter_cons, List.find?_cons, h]
    · have h2 : p a = false := by simpa using h
      simp [List.filter_cons, List.find?_cons, h2, ih]

/-! ## Theorems -/

/-- C1. With a non-empty country and a job query of at least two characters, the cards that
`updateUI` displays are exactly the first ten, in dataset order, of the jobs whose normalized
country equals the normalized country and whose lower-cased title contains the query; every
displayed job satisfies both conditions and at most ten are displayed. -/
theorem updateUI_displays_first_ten_matches (toLowerCase : String → String) (ops : NumOps)
    (jobs salaries : List Record) (country jobInput : String)
    (hcountry : country ≠ "") (hquery : 2 ≤ utf16Length (toLowerCase (trim jobInput))) :
    displayedJobs (updateUI toLowerCase ops jobs salaries country jobInput) =
        (jobs.filter (fun j =>
          decide (toLowerCase (trim (strOr (ownGet j "Country") "")) =
              toLowerCase (trim country)) &&
            includes (toLowerCase (strOr (ownGet j "JobTitle") ""))
              (toLowerCase (trim jobInput)))).take 10 ∧
      (∀ j ∈ displayedJobs (updateUI toLowerCase ops jobs salaries country jobInput),
        j ∈ jobs ∧
        toLowerCase (trim (strOr (ownGet j "Country") "")) = toLowerCase (trim country) ∧
        (toLowerCase (trim jobInput)).data <:+:
          (toLowerCase (strOr (ownGet j "JobTitle") "")).data) ∧
      (displayedJobs (updateUI toLowerCase ops jobs salaries country jobInput)).length ≤ 10 := by
  have hlt : ¬ utf16Length (toLowerCase (trim jobInput)) < 2 := by omega
  have key : displayedJobs (updateUI toLowerCase ops jobs salaries country jobInput) =
      (matchedJobs toLowerCase jobs (toLowerCase (trim country))
        (toLowerCase (trim jobInput))).take 10 := by
    unfold updateUI
    simp only [hcountry, hlt, if_false]
    split
    · rename_i h0
      have : matchedJobs toLowerCase jobs (toLowerCase (trim country))
          (toLowerCase (trim jobInput)) = [] := List.length_eq_zero.mp h0
      simp [displayedJobs, this]
    · simp [displayedJobs]
  refine ⟨?_, ?_, ?_⟩
  · rw [key]; rfl
  · intro j hj
    rw [key] at hj
    have hm := List.mem_of_mem_take hj
    unfold matchedJobs at hm
    rw [List.mem_filter] at hm
    obtain ⟨hin, hp⟩ := hm
    simp only [Bool.and_eq_true, decide_eq_true_eq, includes, normalizedCountryOf] at hp
    exact ⟨hin, hp.1, hp.2⟩
  · rw [key, List.length_take]
    exact Nat.min_le_left _ _

/-- Witness for C1: two of three jobs match country "france" and query "eng". -/
theorem updateUI_displays_first_ten_matches_witness :
    displayedJobs (updateUI asciiLower toyOps
        [[("Country", "France"), ("JobTitle", "Engineer")],
         [("Country", "Spain"), ("JobTitle", "Engineer")],
         [("Country", " FRANCE "), ("JobTitle", "Data ENGineer")]] [] "france" " Eng ") =
      [[("Country", "France"), ("JobTitle", "Engineer")],
       [("Country", " FRANCE "), ("JobTitle", "Data ENGineer")]] := by
  have h := (updateUI_displays_first_ten_matches asciiLower toyOps
    [[("Country", "France"), ("JobTitle", "Engineer")],
     [("Country", "Spain"), ("JobTitle", "Engineer")],
     [("Country", " FRANCE "), ("JobTitle", "Data ENGineer")]] [] "france" " Eng "
    (by decide) (by decide)).1
  rw [h]
  decide

/-- C4, as stated, fails: with the empty country `updateUI` returns at the country guard and
enters neither the summary mode nor the job-list mode, whatever the job query. -/
theorem updateUI_empty_country_enters_no_mode :
    ¬ (((updateUI asciiLower toyOps [] [] "" "engineer").isSummary = true ∨
        (updateUI asciiLower toyOps [] [] "" "engineer").isJobList = true) ∧
       ((utf16Length (asciiLower (trim "engineer")) < 2 →
          (updateUI asciiLower toyOps [] [] "" "engineer").isSummary = true) ∧
        (2 ≤ utf16Length (asciiLower (trim "engineer")) →
          (updateUI asciiLower toyOps [] [] "" "engineer").isJobList = true))) := by
  decide

/-- C4, amended. For a non-empty country value, `updateUI` enters the summary mode when the
job query has length 0 or 1 and the job-list mode when it has length 2 or more, and exactly
one of the two modes is entered; for the empty country value it enters neither mode. -/
theorem updateUI_mode_of_query_length (toLowerCase : String → String) (ops : NumOps)
    (jobs salaries : List Record) (country jobInput : String) :
    (country ≠ "" →
      (utf16Length (toLowerCase (trim jobInput)) < 2 →
        (updateUI toLowerCase ops jobs salaries country jobInput).isSummary = true ∧
        (updateUI toLowerCase ops jobs salaries country jobInput).isJobList = false) ∧
      (2 ≤ utf16Length (toLowerCase (trim jobInput)) →
        (updateUI toLowerCase ops jobs salaries country jobInput).isJobList = true ∧
        (updateUI toLowerCase ops jobs salaries country jobInput).isSummary = false) ∧
      ((updateUI toLowerCase ops jobs salaries country jobInput).isSummary ≠
        (updateUI toLowerCase ops jobs salaries country jobInput).isJobList)) ∧
    (country = "" →
      updateUI toLowerCase ops jobs salaries country jobInput = UIResult.blank ∧
      (updateUI toLowerCase ops jobs salaries country jobInput).isSummary = false ∧
      (updateUI toLowerCase ops jobs salaries country jobInput).isJobList = false) := by
  constructor
  · intro hcountry
    unfold updateUI
    simp only [hcountry, if_false]
    by_cases hlt : utf16Length (toLowerCase (trim jobInput)) < 2
    · have hge : ¬ 2 ≤ utf16Length (toLowerCase (trim jobInput)) := by omega
      simp [hlt, hge, UIResult.isSummary, UIResult.isJobList]
    · have hge : 2 ≤ utf16Length (toLowerCase (trim jobInput)) := by omega
      simp only [hlt, if_false]
      split <;> simp [hge, UIResult.isSummary, UIResult.isJobList]
  · intro hcountry
    unfold updateUI
    simp [hcountry, UIResult.isSummary, UIResult.isJobList]

/-- Witness for C4 amended: country "France" with the one-character query "e". -/
theorem updateUI_mode_of_query_length_witness :
    (updateUI asciiLower toyOps [] [] "France" "e").isSummary = true ∧
    (updateUI asciiLower toyOps [] [] "France" "e").isJobList = false :=
  ((updateUI_mode_of_query_length asciiLower toyOps [] [] "France" "e").1 (by decide)).1
    (by decide)

theorem updateUI_salary (toLowerCase : String → String) (ops : NumOps)
    (jobs salaries : List Record) (country jobInput : String) (hcountry : country ≠ "") :
    (updateUI toLowerCase ops jobs salaries country jobInput).salary =
      some (salaryBox toLowerCase ops salaries (toLowerCase (trim country))) := by
  unfold updateUI
  simp only [hcountry, if_false]
  split
  · rfl
  · split <;> rfl

theorem renderFunFacts_salary (toLowerCase : String → String)
    (jobs salaries : List Record) (nc : String) (m : String × CountVal)
    (med cur : String) (total : Nat) (chart : Chart)
    (h : renderFunFactsForCountry toLowerCase jobs salaries nc =
      Except.ok (FunFacts.facts m med cur total chart)) :
    med = strOr (((matchedSalaries toLowerCase salaries nc).head?).bind
        (fun s => ownGet s "MedianSalary")) "N/A" ∧
    cur = strOr (((matchedSalaries toLowerCase salaries nc).head?).bind
        (fun s => ownGet s "CurrencyTicker")) "" := by
  unfold renderFunFactsForCountry at h
  simp only at h
  split at h
  · cases h
  · split at h
    · cases h
    · split at h
      · cases h
      · simp only [Except.ok.injEq, FunFacts.facts.injEq] at h
        exact ⟨h.2.1.symm, h.2.2.1.symm⟩

/-- C5. The salary record used by `updateUI` and by `renderFunFactsForCountry` is the first
record, in dataset order, whose normalized country equals the normalized country, whatever
follows it; when no record matches, the salary box reports no data and the facts show "N/A"
and an empty currency. -/
theorem salary_lookup_first_match (toLowerCase : String → String) (ops : NumOps)
    (jobs salaries : List Record) (country jobInput : String) :
    ((∀ s ∈ salaries,
        toLowerCase (trim (strOr (ownGet s "Country") "")) ≠ toLowerCase (trim country)) →
      (matchedSalaries toLowerCase salaries (toLowerCase (trim country))).head? = none ∧
      salaryBox toLowerCase ops salaries (toLowerCase (trim country)) = SalaryBox.noData ∧
      (country ≠ "" →
        (updateUI toLowerCase ops jobs salaries country jobInput).salary =
          some SalaryBox.noData) ∧
      (∀ m med cur total chart,
        renderFunFactsForCountry toLowerCase jobs salaries (toLowerCase (trim country)) =
          Except.ok (FunFacts.facts m med cur total chart) → med = "N/A" ∧ cur = "")) ∧
    (∀ before s after, salaries = before ++ s :: after →
      (∀ x ∈ before,
        toLowerCase (trim (strOr (ownGet x "Country") "")) ≠ toLowerCase (trim country)) →
      toLowerCase (trim (strOr (ownGet s "Country") "")) = toLowerCase (trim country) →
      (matchedSalaries toLowerCase salaries (toLowerCase (trim country))).head? = some s ∧
      salaryBox toLowerCase ops salaries (toLowerCase (trim country)) =
        SalaryBox.range
          (convertToUSD ops (toStr (ownGet s "MinSalary")) (toStr (ownGet s "CurrencyTicker")))
          (convertToUSD ops (toStr (ownGet s "MedianSalary"))
            (toStr (ownGet s "CurrencyTicker")))
          (toStr (ownGet s "CurrencyTicker")) ∧
      (country ≠ "" →
        (updateUI toLowerCase ops jobs salaries country jobInput).salary =
          some (SalaryBox.range
            (convertToUSD ops (toStr (ownGet s "MinSalary"))
              (toStr (ownGet s "CurrencyTicker")))
            (convertToUSD ops (toStr (ownGet s "MedianSalary"))
              (toStr (ownGet s "CurrencyTicker")))
            (toStr (ownGet s "CurrencyTicker")))) ∧
      (∀ m med cur total chart,
        renderFunFactsForCountry toLowerCase jobs salaries (toLowerCase (trim country)) =
          Except.ok (FunFacts.facts m med cur total chart) →
        med = strOr (ownGet s "MedianSalary") "N/A" ∧
        cur = strOr (ownGet s "CurrencyTicker") "")) ∧
    ((matchedSalaries toLowerCase salaries (toLowerCase (trim country))).head? = none ↔
      ∀ s ∈ salaries,
        toLowerCase (trim (strOr (ownGet s "Country") "")) ≠ toLowerCase (trim country)) ∧
    (∀ s, (matchedSalaries toLowerCase salaries (toLowerCase (trim country))).head? = some s ↔
      toLowerCase (trim (strOr (ownGet s "Country") "")) = toLowerCase (trim country) ∧
      ∃ before after, salaries = before ++ s :: after ∧
        ∀ x ∈ before,
          toLowerCase (trim (strOr (ownGet x "Country") "")) ≠ toLowerCase (trim country)) := by
  have hnone : (matchedSalaries toLowerCase salaries (toLowerCase (trim country))).head? = none ↔
      ∀ s ∈ salaries,
        toLowerCase (trim (strOr (ownGet s "Country") "")) ≠ toLowerCase (trim country) := by
    unfold matchedSalaries
    rw [head?_filter_eq_find?, List.find?_eq_none]
    simp [normalizedCountryOf]
  have hsome : ∀ s,
      (matchedSalaries toLowerCase salaries (toLowerCase (trim country))).head? = some s ↔
      toLowerCase (trim (strOr (ownGet s "Country") "")) = toLowerCase (trim country) ∧
      ∃ before after, salaries = before ++ s :: after ∧
        ∀ x ∈ before,
          toLowerCase (trim (strOr (ownGet x "Country") "")) ≠ toLowerCase (trim country) := by
    intro s
    unfold matchedSalaries
    rw [head?_filter_eq_find?, List.find?_eq_some]
    simp [normalizedCountryOf]
  refine ⟨?_, ?_, hnone, hsome⟩
  · intro hno
    have hh := hnone.mpr hno
    have hbox : salaryBox toLowerCase ops salaries (toLowerCase (trim country)) =
        SalaryBox.noData := by
      unfold salaryBox
      rw [hh]
    refine ⟨hh, hbox, ?_, ?_⟩
    · intro hc
      rw [updateUI_salary toLowerCase ops jobs salaries country jobInput hc, hbox]
    · intro m med cur total chart hres
      have := renderFunFacts_salary toLowerCase jobs salaries _ m med cur total chart hres
      rw [hh] at this
      exact this
  · intro before s after hsplit hbefore hs
    have hh := (hsome s).mpr ⟨hs, before, after, hsplit, hbefore⟩
    have hbox : salaryBox toLowerCase ops salaries (toLowerCase (trim country)) =
        SalaryBox.range
          (convertToUSD ops (toStr (ownGet s "MinSalary")) (toStr (ownGet s "CurrencyTicker")))
          (convertToUSD ops (toStr (ownGet s "MedianSalary"))
            (toStr (ownGet s "CurrencyTicker")))
          (toStr (ownGet s "CurrencyTicker")) := by
      unfold salaryBox
      rw [hh]
    refine ⟨hh, hbox, ?_, ?_⟩
    · intro hc
      rw [updateUI_salary toLowerCase ops jobs salaries country jobInput hc, hbox]
    · intro m med cur total chart hres
      have := renderFunFacts_salary toLowerCase jobs salaries _ m med cur total chart hres
      rw [hh] at this
      exact this

/-- Instance of C5 with two salary records for France: the salary box of `updateUI` and the
facts of `renderFunFactsForCountry` show the first one (100 and 200 EUR), not the later
duplicate. -/
theorem salary_lookup_first_match_witness :
    (updateUI asciiLower toyOps [[("Country", "France"), ("JobTitle", "Engineer")]]
        [[("Country", "Spain"), ("MinSalary", "7"), ("MedianSalary", "8"),
          ("CurrencyTicker", "GBP")],
         [("Country", "France"), ("MinSalary", "100"), ("MedianSalary", "200"),
          ("CurrencyTicker", "EUR")],
         [("Country", " FRANCE "), ("MinSalary", "1"), ("MedianSalary", "2"),
          ("CurrencyTicker", "USD")]] "France" "").salary =
      some (SalaryBox.range "$108" "$216" "EUR") ∧
    renderFunFactsForCountry asciiLower [[("Country", "France"), ("JobTitle", "Engineer")]]
        [[("Country", "Spain"), ("MinSalary", "7"), ("MedianSalary", "8"),
          ("CurrencyTicker", "GBP")],
         [("Country", "France"), ("MinSalary", "100"), ("MedianSalary", "200"),
          ("CurrencyTicker", "EUR")],
         [("Country", " FRANCE "), ("MinSalary", "1"), ("MedianSalary", "2"),
          ("CurrencyTicker", "USD")]] "france" =
      Except.ok (FunFacts.facts ("Engineer", CountVal.num 1) "200" "EUR" 1
        ⟨[("Engineer", CountVal.num 1)], CountVal.num 1⟩) := by
  refine ⟨?_, by decide⟩
  have h := ((salary_lookup_first_match asciiLower toyOps
    [[("Country", "France"), ("JobTitle", "Engineer")]]
    [[("Country", "Spain"), ("MinSalary", "7"), ("MedianSalary", "8"),
      ("CurrencyTicker", "GBP")],
     [("Country", "France"), ("MinSalary", "100"), ("MedianSalary", "200"),
      ("CurrencyTicker", "EUR")],
     [("Country", " FRANCE "), ("MinSalary", "1"), ("MedianSalary", "2"),
      ("CurrencyTicker", "USD")]] "France" "").2.1
    [[("Country", "Spain"), ("MinSalary", "7"), ("MedianSalary", "8"),
      ("CurrencyTicker", "GBP")]]
    [("Country", "France"), ("MinSalary", "100"), ("MedianSalary", "200"),
      ("CurrencyTicker", "EUR")]
    [[("Country", " FRANCE "), ("MinSalary", "1"), ("MedianSalary", "2"),
      ("CurrencyTicker", "USD")]] rfl (by decide) (by decide)).2.2.1 (by decide)
  rw [h]
  decide

/-! ## Lemmas on objects and histograms -/

theorem ownGet_eq_none {α : Type} (obj : Obj α) (k : String) :
    ownGet obj k = none ↔ k ∉ obj.map Prod.fst := by
  induction obj with
  | nil => simp [ownGet]
  | cons p rest ih =>
    obtain ⟨k', v⟩ := p
    by_cases h : k' = k
    · simp [ownGet, h]
    · have h2 : ¬ k = k' := fun e => h e.symm
      simp [ownGet, h, h2, ih]

theorem ownGet_of_mem {α : Type} (obj : Obj α) (k : String) (v : α)
    (hnd : (obj.map Prod.fst).Nodup) (hmem : (k, v) ∈ obj) : ownGet obj k = some v := by
  induction obj with
  | nil => simp at hmem
  | cons p rest ih =>
    obtain ⟨k', v'⟩ := p
    simp only [List.map_cons, List.nodup_cons] at hnd
    rcases List.mem_cons.mp hmem with heq | hin
    · cases heq
      simp [ownGet]
    · have hne : k' ≠ k := by
        intro e
        apply hnd.1
        rw [e]
        exact List.mem_map_of_mem Prod.fst hin
      simp [ownGet, hne, ih hnd.2 hin]

theorem ownPut_of_not_mem {α : Type} (obj : Obj α) (k : String) (v : α)
    (h : k ∉ obj.map Prod.fst) : ownPut obj k v = obj ++ [(k, v)] := by
  induction obj with
  | nil => simp [ownPut]
  | cons p rest ih =>
    obtain ⟨k', v'⟩ := p
    simp only [List.map_cons, List.mem_cons, not_or] at h
    have hne : k' ≠ k := fun e => h.1 e.symm
    simp [ownPut, hne, ih h.2]

theorem ownPut_of_mem {α : Type} (obj : Obj α) (k : String) (v : α)
    (hnd : (obj.map Prod.fst).Nodup) (h : k ∈ obj.map Prod.fst) :
    ownPut obj k v = obj.map (fun p => if p.1 = k then (p.1, v) else p) := by
  induction obj with
  | nil => simp at h
  | cons p rest ih =>
    obtain ⟨k', v'⟩ := p
    simp only [List.map_cons, List.nodup_cons] at hnd
    by_cases hk : k' = k
    · have hrest : rest.map (fun p => if p.1 = k then (p.1, v) else p) = rest := by
        conv_rhs => rw [← List.map_id rest]
        apply List.map_congr_left
        intro q hq
        have : q.1 ≠ k := by
          intro e
          apply hnd.1
          rw [hk, ← e]
          exact List.mem_map_of_mem Prod.fst hq
        simp [this]
      simp [ownPut, hk, hrest]
    · have hin : k ∈ rest.map Prod.fst := by
        simp only [List.map_cons, List.mem_cons] at h
        rcases h with e | hin
        · exact absurd e.symm hk
        · exact hin
      simp [ownPut, hk, ih hnd.2 hin]

theorem histOK_increment {ks : List String} {obj : Obj CountVal} (h : HistOK ks obj)
    (k : String) (hk : isProtoMember k = false) : HistOK (ks ++ [k]) (increment obj k) := by
  have hk1 : k ≠ "__proto__" := by
    intro e; rw [e] at hk; revert hk; decide
  have hk2 : protoMethodNames.contains k = false := by
    simp only [isProtoMember, Bool.or_eq_false_iff] at hk
    exact hk.2
  by_cases hmem : k ∈ ks
  · have hkeys := h.complete k hmem
    obtain ⟨p, hp, hpk⟩ := List.mem_map.mp hkeys
    obtain ⟨pk, pv⟩ := p
    simp only at hpk
    subst hpk
    have hval := (h.counts _ hp).1
    simp only at hval
    have hget : ownGet obj pk = some (CountVal.num (ks.count pk)) := by
      rw [← hval]; exact ownGet_of_mem obj pk pv h.nodup hp
    have hinc : JobExplorer.increment obj pk =
        obj.map (fun p => if p.1 = pk then (p.1, CountVal.num (ks.count pk + 1)) else p) := by
      unfold JobExplorer.increment assignProp readCount
      rw [hget]
      simp only [hk1, if_false, orZeroPlusOne]
      exact ownPut_of_mem obj pk _ h.nodup hkeys
    have hfst : (obj.map (fun p => if p.1 = pk then (p.1, CountVal.num (ks.count pk + 1))
        else p)).map Prod.fst = obj.map Prod.fst := by
      rw [List.map_map]
      apply List.map_congr_left
      intro q _
      by_cases hq : q.1 = pk <;> simp [hq]
    rw [hinc]
    refine ⟨?_, ?_, ?_, ?_⟩
    · rw [hfst]; exact h.nodup
    · intro q hq
      obtain ⟨q0, hq0, rfl⟩ := List.mem_map.mp hq
      have hc := h.counts q0 hq0
      by_cases hqk : q0.1 = pk
      · simp [hqk, List.count_append]
      · have hne : ¬ pk = q0.1 := fun e => hqk e.symm
        simp [hqk, hne, List.count_append, hc.1, hc.2]
    · intro k' hk'
      rw [hfst]
      rcases List.mem_append.mp hk' with h1 | h1
      · exact h.complete k' h1
      · simp only [List.mem_singleton] at h1
        rw [h1]; exact hkeys
    · rw [List.pairwise_map]
      refine h.order.imp_of_mem ?_
      intro a b ha hb hab
      have ha1 : a.1 ∈ ks := (h.counts a ha).2
      have hb1 : b.1 ∈ ks := (h.counts b hb).2
      have e1 : (if a.1 = pk then (a.1, CountVal.num (ks.count pk + 1)) else a).1 = a.1 := by
        by_cases hq : a.1 = pk <;> simp [hq]
      have e2 : (if b.1 = pk then (b.1, CountVal.num (ks.count pk + 1)) else b).1 = b.1 := by
        by_cases hq : b.1 = pk <;> simp [hq]
      rw [e1, e2, List.indexOf_append_of_mem ha1, List.indexOf_append_of_mem hb1]
      exact hab
  · have hnot : k ∉ obj.map Prod.fst := by
      intro hin
      obtain ⟨p, hp, hpk⟩ := List.mem_map.mp hin
      apply hmem
      rw [← hpk]
      exact (h.counts p hp).2
    have hget : ownGet obj k = none := (ownGet_eq_none obj k).mpr hnot
    have hinc : JobExplorer.increment obj k = obj ++ [(k, CountVal.num 1)] := by
      unfold JobExplorer.increment assignProp readCount
      rw [hget]
      simp only [hk1, hk2, if_false, orZeroPlusOne]
      exact ownPut_of_not_mem obj k _ hnot
    rw [hinc]
    refine ⟨?_, ?_, ?_, ?_⟩
    · rw [List.map_append, List.nodup_append]
      refine ⟨h.nodup, by simp, ?_⟩
      intro a ha hb
      simp only [List.map_cons, List.map_nil, List.mem_singleton] at hb
      exact hnot (hb ▸ ha)
    · intro q hq
      rcases List.mem_append.mp hq with h1 | h1
      · have hc := h.counts q h1
        have hne : ¬ k = q.1 := fun e => hmem (e ▸ hc.2)
        have h0 : List.count q.1 [k] = 0 :=
          List.count_eq_zero_of_not_mem (by simpa using fun e : q.1 = k => hne e.symm)
        simp [List.count_append, hc.1, hc.2, h0]
      · simp only [List.mem_singleton] at h1
        subst h1
        simp [List.count_append, List.count_eq_zero_of_not_mem hmem]
    · intro k' hk'
      rw [List.map_append]
      rcases List.mem_append.mp hk' with h1 | h1
      · exact List.mem_append_left _ (h.complete k' h1)
      · simp only [List.mem_singleton] at h1
        simp [h1]
    · rw [List.pairwise_append]
      refine ⟨?_, by simp, ?_⟩
      · refine h.order.imp_of_mem ?_
        intro a b ha hb hab
        rw [List.indexOf_append_of_mem (h.counts a ha).2,
          List.indexOf_append_of_mem (h.counts b hb).2]
        exact hab
      · intro a ha b hb
        simp only [List.mem_singleton] at hb
        subst hb
        rw [List.indexOf_append_of_mem (h.counts a ha).2, List.indexOf_append_of_not_mem hmem]
        have := List.indexOf_lt_length.mpr (h.counts a ha).2
        simp
        omega

theorem histOK_foldl (ks : List String) (hclean : ∀ k ∈ ks, isProtoMember k = false) :
    HistOK ks (ks.foldl increment []) := by
  induction ks using List.reverseRecOn with
  | nil => exact ⟨by simp, by simp, by simp, by simp⟩
  | append_singleton ks k ih =>
    rw [List.foldl_append]
    simp only [List.foldl_cons, List.foldl_nil]
    refine histOK_increment (ih ?_) k (hclean k (by simp))
    intro k' hk'
    exact hclean k' (List.mem_append_left _ hk')

/-! ## Array-index keys -/

theorem isDigit_bounds (c : Char) (h : c.isDigit = true) : 48 ≤ c.toNat ∧ c.toNat ≤ 57 := by
  simp only [Char.isDigit, Bool.and_eq_true, decide_eq_true_eq] at h
  obtain ⟨h1, h2⟩ := h
  have h1n : (48 : UInt32).toNat ≤ c.val.toNat := h1
  have h2n : c.val.toNat ≤ (57 : UInt32).toNat := h2
  exact ⟨h1n, h2n⟩

theorem char_eq_of_toNat_eq (a b : Char) (h : a.toNat = b.toNat) : a = b := by
  rw [← Char.ofNat_toNat a, ← Char.ofNat_toNat b, h]

theorem digitsValue_append_singleton (l : List Char) (c : Char) (acc : Nat) :
    digitsValue (l ++ [c]) acc =
      (digitsValue l acc).bind
        (fun m => if c.isDigit then some (10 * m + (c.toNat - 48)) else none) := by
  induction l generalizing acc with
  | nil =>
    by_cases hc : c.isDigit = true <;> simp [digitsValue, hc]
  | cons d ds ih =>
    by_cases hd : d.isDigit = true
    · simp [digitsValue, hd, ih]
    · simp [digitsValue, hd]

theorem digitsValue_ge_acc (l : List Char) (acc n : Nat) (h : digitsValue l acc = some n) :
    acc ≤ n := by
  induction l generalizing acc with
  | nil =>
    simp only [digitsValue, Option.some.injEq] at h
    omega
  | cons d ds ih =>
    by_cases hd : d.isDigit = true
    · simp only [digitsValue, hd, if_true] at h
      have := ih _ h
      omega
    · simp [digitsValue, hd] at h

theorem digitsValue_pos (l : List Char) (n : Nat) (hne : l ≠ [])
    (hnz : NoLeadingZero l) (h : digitsValue l 0 = some n) : 0 < n := by
  cases l with
  | nil => exact absurd rfl hne
  | cons c cs =>
    have hc0 : c ≠ '0' := hnz c cs rfl
    by_cases hd : c.isDigit = true
    · simp only [digitsValue, hd, if_true] at h
      have hge := digitsValue_ge_acc _ _ _ h
      have hb := isDigit_bounds c hd
      have hne48 : c.toNat ≠ 48 := by
        intro e
        apply hc0
        exact char_eq_of_toNat_eq c '0' (by rw [e]; decide)
      omega
    · simp [digitsValue, hd] at h

theorem noLeadingZero_of_append {l : List Char} {c : Char} (h : NoLeadingZero (l ++ [c])) :
    NoLeadingZero l := by
  intro d ds hl
  exact h d (ds ++ [c]) (by rw [hl]; rfl)

theorem digitsValue_injective (l₁ : List Char) :
    ∀ (l₂ : List Char) (n : Nat), NoLeadingZero l₁ → NoLeadingZero l₂ →
      digitsValue l₁ 0 = some n → digitsValue l₂ 0 = some n → l₁ = l₂ := by
  induction l₁ using List.reverseRecOn with
  | nil =>
    intro l₂ n _ h2 e1 e2
    simp only [digitsValue, Option.some.injEq] at e1
    by_contra hne
    have := digitsValue_pos l₂ n (fun e => hne e.symm) h2 e2
    omega
  | append_singleton l₁ c₁ ih =>
    intro l₂ n h1 h2 e1 e2
    rcases List.eq_nil_or_concat l₂ with hnil | ⟨m₂, c₂, hcat⟩
    · subst hnil
      simp only [digitsValue, Option.some.injEq] at e2
      have := digitsValue_pos (l₁ ++ [c₁]) n (by simp) h1 e1
      omega
    · rw [List.concat_eq_append] at hcat
      subst hcat
      rw [digitsValue_append_singleton] at e1 e2
      cases hv1 : digitsValue l₁ 0 with
      | none => simp [hv1] at e1
      | some v1 =>
        cases hv2 : digitsValue m₂ 0 with
        | none => simp [hv2] at e2
        | some v2 =>
          by_cases hd1 : c₁.isDigit = true
          · by_cases hd2 : c₂.isDigit = true
            · simp only [hv1, hd1, Option.some_bind, if_true, Option.some.injEq] at e1
              simp only [hv2, hd2, Option.some_bind, if_true, Option.some.injEq] at e2
              have b1 := isDigit_bounds c₁ hd1
              have b2 := isDigit_bounds c₂ hd2
              have hv : v1 = v2 := by omega
              have hc : c₁.toNat = c₂.toNat := by omega
              have hl : l₁ = m₂ :=
                ih m₂ v1 (noLeadingZero_of_append h1) (noLeadingZero_of_append h2) hv1 (by rw [hv2, hv])
              rw [hl, char_eq_of_toNat_eq _ _ hc]
            · simp [hv2, hd2] at e2
          · simp [hv1, hd1] at e1

theorem arrayIndex_injective (a b : String) (n : Nat) (ha : arrayIndex a = some n)
    (hb : arrayIndex b = some n) : a = b := by
  have key : ∀ (k : String) (m : Nat), arrayIndex k = some m →
      digitsValue k.data 0 = some m ∧ (k.data = ['0'] ∨ (k.data ≠ [] ∧ NoLeadingZero k.data)) := by
    intro k m hk
    unfold arrayIndex at hk
    cases hdata : k.data with
    | nil => simp [hdata] at hk
    | cons c cs =>
      simp only [hdata] at hk
      by_cases hz : c = '0' ∧ cs ≠ []
      · simp [hz] at hk
      · simp only [hz, if_false] at hk
        cases hv : digitsValue (c :: cs) 0 with
        | none => simp [hv] at hk
        | some v =>
          simp only [hv] at hk
          by_cases hlt : v < 2 ^ 32 - 1
          · rw [if_pos hlt, Option.some.injEq] at hk
            subst hk
            refine ⟨rfl, ?_⟩
            by_cases hc : c = '0'
            · left
              have : cs = [] := by
                by_contra hcs
                exact hz ⟨hc, hcs⟩
              rw [hc, this]
            · right
              refine ⟨by simp, ?_⟩
              intro d ds hd
              cases hd
              exact hc
          · rw [if_neg hlt] at hk
            cases hk
  obtain ⟨va, ca⟩ := key a n ha
  obtain ⟨vb, cb⟩ := key b n hb
  have hdata : a.data = b.data := by
    rcases ca with ha0 | ⟨hane, hanz⟩
    · have hn : n = 0 := by
        rw [ha0] at va
        simp only [digitsValue] at va
        have : (if ('0' : Char).isDigit = true then some (10 * 0 + (('0' : Char).toNat - 48))
            else none) = some 0 := by decide
        rw [this] at va
        exact (Option.some.inj va).symm
      rcases cb with hb0 | ⟨hbne, hbnz⟩
      · rw [ha0, hb0]
      · have := digitsValue_pos b.data n hbne hbnz vb
        omega
    · rcases cb with hb0 | ⟨hbne, hbnz⟩
      · have hn : n = 0 := by
          rw [hb0] at vb
          simp only [digitsValue] at vb
          have : (if ('0' : Char).isDigit = true then some (10 * 0 + (('0' : Char).toNat - 48))
              else none) = some 0 := by decide
          rw [this] at vb
          exact (Option.some.inj vb).symm
        have := digitsValue_pos a.data n hane hanz va
        omega
      · exact digitsValue_injective a.data b.data n hanz hbnz va vb
  cases a
  cases b
  simp only at hdata
  rw [hdata]

/-! ## Order of `Object.entries` and stability of the sort -/

theorem indexed_map_snd {α : Type} (obj : Obj α) :
    (obj.filterMap (fun p => (arrayIndex p.1).map (fun n => (n, p)))).map Prod.snd =
      obj.filter (fun p => (arrayIndex p.1).isSome) := by
  induction obj with
  | nil => rfl
  | cons p rest ih =>
    cases h : arrayIndex p.1 with
    | none => simp [List.filterMap_cons, List.filter_cons, h, ih]
    | some n => simp [List.filterMap_cons, List.filter_cons, h, ih]

theorem mem_indexed {α : Type} (obj : Obj α) (q : Nat × (String × α))
    (h : q ∈ obj.filterMap (fun p => (arrayIndex p.1).map (fun n => (n, p)))) :
    arrayIndex q.2.1 = some q.1 ∧ q.2 ∈ obj := by
  rw [List.mem_filterMap] at h
  obtain ⟨p, hp, hq⟩ := h
  cases hi : arrayIndex p.1 with
  | none => simp [hi] at hq
  | some n =>
    simp only [hi, Option.map_some', Option.some.injEq] at hq
    subst hq
    exact ⟨hi, hp⟩

theorem entries_perm {α : Type} (obj : Obj α) : (entries obj).Perm obj := by
  unfold entries
  have h1 := ((List.perm_insertionSort (fun a b : Nat × (String × α) => a.1 ≤ b.1)
    (obj.filterMap (fun p => (arrayIndex p.1).map (fun n => (n, p))))).map Prod.snd)
  rw [indexed_map_snd] at h1
  have h2 : obj.filter (fun p => (arrayIndex p.1).isNone) =
      obj.filter (fun p => !(arrayIndex p.1).isSome) := by
    apply List.filter_congr
    intro p _
    cases arrayIndex p.1 <;> rfl
  rw [h2]
  exact (h1.append_right _).trans (List.filter_append_perm _ obj)

theorem entries_pairwise {α : Type} (ks : List String) (obj : Obj α)
    (hnd : (obj.map Prod.fst).Nodup)
    (hord : obj.Pairwise (fun a b => ks.indexOf a.1 < ks.indexOf b.1)) :
    (entries obj).Pairwise (fun a b => ownKeyBefore ks a.1 b.1) := by
  have hperm := List.perm_insertionSort (fun a b : Nat × (String × α) => a.1 ≤ b.1)
    (obj.filterMap (fun p => (arrayIndex p.1).map (fun n => (n, p))))
  unfold entries
  rw [List.pairwise_append]
  refine ⟨?_, ?_, ?_⟩
  · rw [List.pairwise_map]
    haveI : IsTotal (Nat × (String × α)) (fun a b => a.1 ≤ b.1) :=
      ⟨fun a b => Nat.le_total a.1 b.1⟩
    haveI : IsTrans (Nat × (String × α)) (fun a b => a.1 ≤ b.1) :=
      ⟨fun a b c hab hbc => Nat.le_trans hab hbc⟩
    have hsorted : List.Pairwise (fun a b : Nat × (String × α) => a.1 ≤ b.1)
        (List.insertionSort (fun a b : Nat × (String × α) => a.1 ≤ b.1)
          (obj.filterMap (fun p => (arrayIndex p.1).map (fun n => (n, p))))) :=
      List.sorted_insertionSort _ _
    have hkeys : List.Pairwise (fun a b : Nat × (String × α) => a.2.1 ≠ b.2.1)
        (List.insertionSort (fun a b : Nat × (String × α) => a.1 ≤ b.1)
          (obj.filterMap (fun p => (arrayIndex p.1).map (fun n => (n, p))))) := by
      have hsub : List.Sublist (((obj.filterMap
          (fun p => (arrayIndex p.1).map (fun n => (n, p)))).map Prod.snd).map Prod.fst)
          (obj.map Prod.fst) := by
        rw [indexed_map_snd]
        exact (List.filter_sublist obj).map Prod.fst
      have hnd2 := hnd.sublist hsub
      have hnd3 : (((List.insertionSort (fun a b : Nat × (String × α) => a.1 ≤ b.1)
          (obj.filterMap (fun p => (arrayIndex p.1).map (fun n => (n, p))))).map
          Prod.snd).map Prod.fst).Nodup := ((hperm.map Prod.snd).map Prod.fst).nodup_iff.mpr hnd2
      rw [List.map_map] at hnd3
      unfold List.Nodup at hnd3
      rw [List.pairwise_map] at hnd3
      exact hnd3
    refine (hsorted.and hkeys).imp_of_mem ?_
    intro a b ha hb hab
    have ha2 := mem_indexed obj a (hperm.mem_iff.mp ha)
    have hb2 := mem_indexed obj b (hperm.mem_iff.mp hb)
    unfold ownKeyBefore
    rw [ha2.1, hb2.1]
    simp only
    rcases Nat.lt_or_ge a.1 b.1 with hlt | hge
    · exact hlt
    · exfalso
      have heq : a.1 = b.1 := Nat.le_antisymm hab.1 hge
      apply hab.2
      exact arrayIndex_injective a.2.1 b.2.1 a.1 ha2.1 (by rw [heq]; exact hb2.1)
  · refine (hord.filter _).imp_of_mem ?_
    intro a b ha hb hab
    have ha2 := (List.mem_filter.mp ha).2
    have hb2 := (List.mem_filter.mp hb).2
    unfold ownKeyBefore
    cases hia : arrayIndex a.1 with
    | some n => simp [hia] at ha2
    | none =>
      cases hib : arrayIndex b.1 with
      | some n => simp [hib] at hb2
      | none => exact hab
  · intro a ha b hb
    obtain ⟨q, hq, rfl⟩ := List.mem_map.mp ha
    have ha2 := mem_indexed obj q (hperm.mem_iff.mp hq)
    have hb2 := (List.mem_filter.mp hb).2
    unfold ownKeyBefore
    cases hib : arrayIndex b.1 with
    | some n => simp [hib] at hb2
    | none => simp [ha2.1]

theorem keepsOrder_num (a b : String × CountVal) (m n : Nat) (ha : a.2 = CountVal.num m)
    (hb : b.2 = CountVal.num n) : keepsOrder a b ↔ n ≤ m := by
  unfold keepsOrder compareFn
  rw [ha, hb]
  simp only [CountVal.toNumber]
  omega

theorem orderedInsert_pairwise (R : String × CountVal → String × CountVal → Prop)
    (x : String × CountVal) (s : List (String × CountVal))
    (hx : ∃ n, x.2 = CountVal.num n) (hs : ∀ p ∈ s, ∃ n, p.2 = CountVal.num n)
    (hQ : s.Pairwise (fun a b => b.2.value ≤ a.2.value ∧ (a.2 = b.2 → R a b)))
    (hxR : ∀ y ∈ s, R x y) :
    (s.orderedInsert keepsOrder x).Pairwise
      (fun a b => b.2.value ≤ a.2.value ∧ (a.2 = b.2 → R a b)) := by
  obtain ⟨m, hm⟩ := hx
  induction s with
  | nil => simp
  | cons y ys ih =>
    obtain ⟨n, hn⟩ := hs y (List.mem_cons_self _ _)
    rw [List.pairwise_cons] at hQ
    have hko := keepsOrder_num x y m n hm hn
    simp only [List.orderedInsert]
    by_cases hle : n ≤ m
    · rw [if_pos (hko.mpr hle)]
      rw [List.pairwise_cons]
      refine ⟨?_, List.pairwise_cons.mpr hQ⟩
      intro z hz
      refine ⟨?_, fun _ => hxR z hz⟩
      rcases List.mem_cons.mp hz with rfl | hz2
      · rw [hm, hn]; exact hle
      · have := (hQ.1 z hz2).1
        rw [hn] at this
        rw [hm]
        simp only [CountVal.value] at this ⊢
        omega
    · rw [if_neg (fun h => hle (hko.mp h))]
      rw [List.pairwise_cons]
      refine ⟨?_, ih (fun p hp => hs p (List.mem_cons_of_mem _ hp)) hQ.2
        (fun z hz => hxR z (List.mem_cons_of_mem _ hz))⟩
      intro z hz
      rcases (List.mem_orderedInsert keepsOrder).mp hz with rfl | hz2
      · refine ⟨?_, ?_⟩
        · rw [hm, hn]; simp only [CountVal.value]; omega
        · intro e
          rw [hm, hn] at e
          cases e
          omega
      · exact hQ.1 z hz2

theorem sortByCount_pairwise (R : String × CountVal → String × CountVal → Prop)
    (l : List (String × CountVal)) (hnum : ∀ p ∈ l, ∃ n, p.2 = CountVal.num n)
    (hR : l.Pairwise R) :
    (sortByCount l).Pairwise (fun a b => b.2.value ≤ a.2.value ∧ (a.2 = b.2 → R a b)) := by
  unfold sortByCount
  induction l with
  | nil => simp
  | cons x xs ih =>
    rw [List.pairwise_cons] at hR
    simp only [List.insertionSort]
    refine orderedInsert_pairwise R x _ (hnum x (List.mem_cons_self _ _)) ?_
      (ih (fun p hp => hnum p (List.mem_cons_of_mem _ hp)) hR.2) ?_
    · intro p hp
      exact hnum p (List.mem_cons_of_mem _ ((List.mem_insertionSort keepsOrder).mp hp))
    · intro y hy
      exact hR.1 y ((List.mem_insertionSort keepsOrder).mp hy)

theorem sortByCount_perm (l : List (String × CountVal)) : (sortByCount l).Perm l :=
  List.perm_insertionSort keepsOrder l

theorem chartCount_eq_foldl (jobList : List Record) :
    chartCount jobList = (jobList.map chartKey).foldl increment [] := by
  unfold chartCount
  rw [List.foldl_map]

theorem titleCount_eq_foldl (jobList : List Record) :
    titleCount jobList =
      (jobList.map (fun j => strOr (ownGet j "JobTitle") "")).foldl increment [] := by
  unfold titleCount
  rw [List.foldl_map]

/-- C3, as stated, fails: for the jobs titled "B" then "1" both counts are 1, and the title
"1", an array index, precedes "B" in the top list although "B" was encountered first. -/
theorem chartTop_index_title_precedes_earlier_title :
    ¬ ((chartTop [[("JobTitle", "B")], [("JobTitle", "1")]]).Pairwise
        (fun a b => a.2 = b.2 →
          List.indexOf a.1 (List.map chartKey [[("JobTitle", "B")], [("JobTitle", "1")]]) <
            List.indexOf b.1 (List.map chartKey [[("JobTitle", "B")], [("JobTitle", "1")]]))) := by
  have h : chartTop [[("JobTitle", "B")], [("JobTitle", "1")]] =
      [("1", CountVal.num 1), ("B", CountVal.num 1)] := by decide
  rw [h]
  intro hp
  rw [List.pairwise_cons] at hp
  have h2 := hp.1 ("B", CountVal.num 1) (by simp) rfl
  revert h2
  decide

/-- C3, amended. For a non-empty job list none of whose title keys names a member of
`Object.prototype`, `renderTopJobsChart` succeeds and its top list has at most 5 entries with
distinct titles, each with the number of jobs of that title, ordered by count descending; two
titles with equal counts appear in own-property order: titles that are array indices first,
in ascending numeric order, then the other titles in the order of first encounter. -/
theorem chartTop_sorted_ties_in_own_key_order (jobList : List Record) (hne : jobList ≠ [])
    (hclean : ∀ j ∈ jobList, isProtoMember (chartKey j) = false) :
    (∃ chart, renderTopJobsChart jobList = Except.ok chart ∧ chart.top = chartTop jobList) ∧
    (chartTop jobList).length ≤ 5 ∧
    ((chartTop jobList).map Prod.fst).Nodup ∧
    (∀ p ∈ chartTop jobList,
      p.2 = CountVal.num ((jobList.map chartKey).count p.1) ∧ p.1 ∈ jobList.map chartKey) ∧
    (chartTop jobList).Pairwise
      (fun a b => (jobList.map chartKey).count b.1 ≤ (jobList.map chartKey).count a.1) ∧
    (chartTop jobList).Pairwise
      (fun a b => a.2 = b.2 → ownKeyBefore (jobList.map chartKey) a.1 b.1) := by
  have hk : ∀ k ∈ jobList.map chartKey, isProtoMember k = false := by
    intro k hk
    obtain ⟨j, hj, rfl⟩ := List.mem_map.mp hk
    exact hclean j hj
  have H := histOK_foldl (jobList.map chartKey) hk
  rw [← chartCount_eq_foldl] at H
  have hperm : (sortByCount (entries (chartCount jobList))).Perm (chartCount jobList) :=
    (sortByCount_perm _).trans (entries_perm _)
  have hcounts : ∀ p ∈ sortByCount (entries (chartCount jobList)),
      p.2 = CountVal.num ((jobList.map chartKey).count p.1) ∧ p.1 ∈ jobList.map chartKey :=
    fun p hp => H.counts p (hperm.mem_iff.mp hp)
  have hQ := sortByCount_pairwise
    (fun a b => ownKeyBefore (jobList.map chartKey) a.1 b.1) (entries (chartCount jobList))
    (fun p hp => ⟨_, (H.counts p ((entries_perm _).mem_iff.mp hp)).1⟩)
    (entries_pairwise _ _ H.nodup H.order)
  have hsub : List.Sublist (chartTop jobList) (sortByCount (entries (chartCount jobList))) :=
    List.take_sublist _ _
  have hnonempty : chartTop jobList ≠ [] := by
    cases jobList with
    | nil => exact absurd rfl hne
    | cons j js =>
      have hin : chartKey j ∈ (chartCount (j :: js)).map Prod.fst :=
        H.complete _ (by simp)
      obtain ⟨p, hp, _⟩ := List.mem_map.mp hin
      have hp2 := hperm.mem_iff.mpr hp
      unfold chartTop
      intro hnil
      cases hs : sortByCount (entries (chartCount (j :: js))) with
      | nil => rw [hs] at hp2; simp at hp2
      | cons x xs => rw [hs] at hnil; simp at hnil
  refine ⟨?_, ?_, ?_, ?_, ?_, ?_⟩
  · unfold renderTopJobsChart
    cases htop : chartTop jobList with
    | nil => exact absurd htop hnonempty
    | cons x xs => exact ⟨_, rfl, rfl⟩
  · unfold chartTop
    rw [List.length_take]
    exact Nat.min_le_left _ _
  · exact ((hperm.map Prod.fst).nodup_iff.mpr H.nodup).sublist (hsub.map Prod.fst)
  · intro p hp
    exact hcounts p (hsub.subset hp)
  · refine (hQ.sublist hsub).imp_of_mem ?_
    intro a b ha hb hab
    have h1 := (hcounts a (hsub.subset ha)).1
    have h2 := (hcounts b (hsub.subset hb)).1
    have h3 := hab.1
    rw [h1, h2] at h3
    exact h3
  · exact (hQ.sublist hsub).imp (fun hab => hab.2)

/-- Witness for C3 amended: the jobs titled "B", "1", "B". -/
theorem chartTop_sorted_ties_in_own_key_order_witness :
    (chartTop [[("JobTitle", "B")], [("JobTitle", "1")], [("JobTitle", "B")]]).length ≤ 5 :=
  (chartTop_sorted_ties_in_own_key_order
    [[("JobTitle", "B")], [("JobTitle", "1")], [("JobTitle", "B")]] (by decide) (by decide)).2.1

/-! ## Behaviour away from the members of `Object.prototype`

The theorems of this section delimit the failing inputs of C2, C6, C8, C9 and C10: on inputs
that do not name a member of `Object.prototype` (and, for C10, on jobs that have a title
field) the code does what those claims say. -/

theorem sorted_histogram_head (ks : List String) (hne : ks ≠ [])
    (hclean : ∀ k ∈ ks, isProtoMember k = false) :
    ∃ t, (sortByCount (entries (ks.foldl increment []))).head? =
        some (t, CountVal.num (ks.count t)) ∧ t ∈ ks ∧ ∀ u, ks.count u ≤ ks.count t := by
  have H := histOK_foldl ks hclean
  have hperm : (sortByCount (entries (ks.foldl increment []))).Perm (ks.foldl increment []) :=
    (sortByCount_perm _).trans (entries_perm _)
  have hQ := sortByCount_pairwise (fun _ _ => True) (entries (ks.foldl increment []))
    (fun p hp => ⟨_, (H.counts p ((entries_perm _).mem_iff.mp hp)).1⟩)
    (List.pairwise_of_forall (fun _ _ => trivial))
  cases hs : sortByCount (entries (ks.foldl increment [])) with
  | nil =>
    exfalso
    cases ks with
    | nil => exact hne rfl
    | cons k ks' =>
      have hin := H.complete k (by simp)
      obtain ⟨p, hp, _⟩ := List.mem_map.mp hin
      have hp2 := hperm.mem_iff.mpr hp
      rw [hs] at hp2
      simp at hp2
  | cons x xs =>
    rw [hs] at hperm hQ
    have hx := H.counts x (hperm.mem_iff.mp (List.mem_cons_self _ _))
    refine ⟨x.1, ?_, hx.2, ?_⟩
    · simp only [List.head?_cons]
      rw [← hx.1]
    · intro u
      by_cases hu : u ∈ ks
      · obtain ⟨p, hp, hpu⟩ := List.mem_map.mp (H.complete u hu)
        have hp2 := hperm.mem_iff.mpr hp
        have hpc := (H.counts p hp).1
        rcases List.mem_cons.mp hp2 with heq | htail
        · rw [← hpu, heq]
        · have hle := ((List.pairwise_cons.mp hQ).1 p htail).1
          rw [hpc, hx.1] at hle
          rw [← hpu]
          exact hle
      · rw [List.count_eq_zero_of_not_mem hu]
        exact Nat.zero_le _

/-- Away from the members of `Object.prototype` the most common title is a title of maximal
number of occurrences, reported with that number (the general statement of C2). -/
theorem mostCommonTitle_max_count (jobList : List Record) (hne : jobList ≠ [])
    (hclean : ∀ j ∈ jobList, isProtoMember (strOr (ownGet j "JobTitle") "") = false) :
    ∃ t, mostCommonTitle jobList =
        some (t, CountVal.num
          ((jobList.map (fun j => strOr (ownGet j "JobTitle") "")).count t)) ∧
      t ∈ jobList.map (fun j => strOr (ownGet j "JobTitle") "") ∧
      ∀ u, (jobList.map (fun j => strOr (ownGet j "JobTitle") "")).count u ≤
        (jobList.map (fun j => strOr (ownGet j "JobTitle") "")).count t := by
  unfold mostCommonTitle
  rw [titleCount_eq_foldl]
  refine sorted_histogram_head _ (by simpa using hne) ?_
  intro k hk
  obtain ⟨j, hj, rfl⟩ := List.mem_map.mp hk
  exact hclean j hj

theorem head?_take_five {α : Type} (l : List α) : (l.take 5).head? = l.head? := by
  cases l <;> rfl

theorem renderTopJobsChart_ok (jobList : List Record) (hne : jobList ≠ [])
    (hclean : ∀ j ∈ jobList, isProtoMember (chartKey j) = false) :
    ∃ chart, renderTopJobsChart jobList = Except.ok chart := by
  have hk : ∀ k ∈ jobList.map chartKey, isProtoMember k = false := by
    intro k hk
    obtain ⟨j, hj, rfl⟩ := List.mem_map.mp hk
    exact hclean j hj
  obtain ⟨t, ht, _⟩ := sorted_histogram_head (jobList.map chartKey) (by simpa using hne) hk
  rw [← chartCount_eq_foldl] at ht
  unfold renderTopJobsChart chartTop
  rw [head?_take_five, ht]
  exact ⟨_, rfl⟩

/-- When no job title names a member of `Object.prototype`, no call of `updateUI` fails (the
general statement of C9). -/
theorem updateUI_succeeds_without_inherited_titles (toLowerCase : String → String)
    (ops : NumOps) (jobs salaries : List Record) (country jobInput : String)
    (hclean : ∀ j ∈ jobs, ∀ t, ownGet j "JobTitle" = some t → isProtoMember t = false) :
    (updateUI toLowerCase ops jobs salaries country jobInput).failed = false := by
  have h1 : ∀ j ∈ jobs, isProtoMember (strOr (ownGet j "JobTitle") "") = false := by
    intro j hj
    cases ht : ownGet j "JobTitle" with
    | none => decide
    | some t =>
      by_cases he : t = ""
      · simp only [strOr, he]; decide
      · simp only [strOr, he, if_false]; exact hclean j hj t ht
  have h2 : ∀ j ∈ jobs, isProtoMember (chartKey j) = false := by
    intro j hj
    unfold chartKey
    cases ht : ownGet j "JobTitle" with
    | none => decide
    | some t => exact hclean j hj t ht
  unfold updateUI
  by_cases hc : country = ""
  · simp [hc, UIResult.failed]
  · simp only [hc, if_false]
    by_cases hlt : utf16Length (toLowerCase (trim jobInput)) < 2
    · simp only [hlt, if_true]
      unfold renderFunFactsForCountry
      by_cases hlen : (countryJobs toLowerCase jobs (toLowerCase (trim country))).length = 0
      · simp [hlen, UIResult.failed]
      · have hne : countryJobs toLowerCase jobs (toLowerCase (trim country)) ≠ [] :=
          fun e => hlen (by rw [e]; rfl)
        have hsub : ∀ j ∈ countryJobs toLowerCase jobs (toLowerCase (trim country)),
            j ∈ jobs := fun j hj => (List.mem_filter.mp hj).1
        obtain ⟨t, ht, _⟩ := mostCommonTitle_max_count _ hne (fun j hj => h1 j (hsub j hj))
        obtain ⟨chart, hchart⟩ := renderTopJobsChart_ok _ hne (fun j hj => h2 j (hsub j hj))
        simp only [hlen, if_false, ht, hchart, UIResult.failed]
    · simp only [hlt, if_false]
      split <;> simp [UIResult.failed]

/-- When every job has a `JobTitle` field, the most common title reported by
`renderFunFactsForCountry` is the first entry of the top list of `renderTopJobsChart` (the
general statement of C10). -/
theorem mostCommonTitle_eq_chart_head (jobList : List Record)
    (htitle : ∀ j ∈ jobList, ∃ t, ownGet j "JobTitle" = some t) :
    mostCommonTitle jobList = (chartTop jobList).head? := by
  have hkeys : jobList.map (fun j => strOr (ownGet j "JobTitle") "") =
      jobList.map chartKey := by
    apply List.map_congr_left
    intro j hj
    obtain ⟨t, ht⟩ := htitle j hj
    unfold chartKey
    rw [ht]
    by_cases he : t = ""
    · simp [strOr, toStr, he]
    · simp [strOr, toStr, he]
  unfold mostCommonTitle chartTop
  rw [head?_take_five, titleCount_eq_foldl, chartCount_eq_foldl, hkeys]

/-- For a code of the rate table the converted value is the amount times the rate of the
code, and for a code that is neither in the table nor a member of `Object.prototype` the
result is that for USD (the general statement of C8). -/
theorem convertToUSD_rate (ops : NumOps) (amount : String) :
    (∀ p ∈ currencyRates, convertToUSD ops amount p.1 =
      "$" ++ ops.toLocaleString (ops.mul (ops.parseFloat amount) (ops.ofDecimal p.2.1 p.2.2))) ∧
    (∀ code, ownGet currencyRates code = none → isProtoMember code = false →
      convertToUSD ops amount code = convertToUSD ops amount "USD") := by
  constructor
  · intro p hp
    have hr : rateOrOne p.1 = RateVal.number p.2.1 p.2.2 := by
      revert p
      decide
    simp only [convertToUSD, hr, usdValue]
  · intro code hnone hproto
    have h1 : rateOrOne code = RateVal.number 1 0 := by
      unfold rateOrOne
      rw [hnone]
      simp [hproto]
    have h2 : rateOrOne "USD" = RateVal.number 1 0 := by decide
    simp only [convertToUSD, h1, h2]

theorem reduceKeys_append (values : List String) (keys : List String) :
    ∀ (i : Nat) (obj : Record),
      ((keys.map trim).Nodup) → (∀ k ∈ keys, trim k ≠ "__proto__") →
      (∀ k ∈ keys, trim k ∉ obj.map Prod.fst) →
      reduceKeys values i keys obj =
        obj ++ (keys.enumFrom i).map
          (fun p => (trim p.2, strOr ((values.get? p.1).map trim) "")) := by
  induction keys with
  | nil => intro i obj _ _ _; simp [reduceKeys]
  | cons key keys ih =>
    intro i obj hnd hproto hfresh
    simp only [List.map_cons, List.nodup_cons] at hnd
    have hput : assignProp obj (trim key) (strOr ((values.get? i).map trim) "") =
        obj ++ [(trim key, strOr ((values.get? i).map trim) "")] := by
      unfold assignProp
      rw [if_neg (hproto key (List.mem_cons_self _ _))]
      exact ownPut_of_not_mem obj _ _ (hfresh key (List.mem_cons_self _ _))
    simp only [reduceKeys, hput]
    rw [ih (i + 1) _ hnd.2 (fun k hk => hproto k (List.mem_cons_of_mem _ hk))]
    · simp [List.enumFrom_cons]
    · intro k hk
      rw [List.map_append, List.mem_append]
      rintro (h | h)
      · exact hfresh k (List.mem_cons_of_mem _ hk) h
      · simp only [List.map_cons, List.map_nil, List.mem_singleton] at h
        apply hnd.1
        rw [← h]
        exact List.mem_map_of_mem trim hk

/-- When the trimmed header names are distinct and none is `__proto__`, the record of a data
line has exactly the trimmed header names as fields, in header order, and the field of
header position `p` holds the trimmed piece `p` of the line, or the empty string when the
line has no such piece (the general statement of C6). -/
theorem recordOfLine_fields (keys : List String) (line : String)
    (hnd : (keys.map trim).Nodup) (hproto : ∀ k ∈ keys, trim k ≠ "__proto__") :
    recordOfLine keys line =
        keys.enum.map (fun p => (trim p.2, strOr (((split '\t' line).get? p.1).map trim) "")) ∧
      (recordOfLine keys line).map Prod.fst = keys.map trim := by
  have h := reduceKeys_append (split '\t' line) keys 0 [] hnd hproto (by simp)
  have h1 : recordOfLine keys line =
      keys.enum.map (fun p => (trim p.2, strOr (((split '\t' line).get? p.1).map trim) "")) := by
    unfold recordOfLine
    rw [h]
    simp [List.enum]
  refine ⟨h1, ?_⟩
  rw [h1, List.map_map]
  have : (Prod.fst ∘ fun p : Nat × String =>
      (trim p.2, strOr (((split '\t' line).get? p.1).map trim) "")) = trim ∘ Prod.snd := by
    funext p
    rfl
  rw [this, ← List.map_map, List.enum_map_snd]

/-- C7. The trimmed text is the text without its leading and trailing blank characters; the
parsing step returns as many records as the trimmed text has newline characters, that is
(line count − 1), and record `i` is the one built from line `i + 1`, the lines being the
newline-free pieces whose concatenation with newlines is the trimmed text. Text made of
blank characters only gives no record, blank characters (such as blank lines) appended to a
text do not change the result, and the empty text gives the empty sequence. -/
theorem parseTSV_one_record_per_data_line (text : String) :
    (∃ lead trail : List Char, text.data = lead ++ (trim text).data ++ trail ∧
      (∀ c ∈ lead, isTrimChar c = true) ∧ (∀ c ∈ trail, isTrimChar c = true) ∧
      (∀ c, (trim text).data.head? = some c → isTrimChar c = false) ∧
      (∀ c, (trim text).data.getLast? = some c → isTrimChar c = false)) ∧
    (parseTSV text).length = (trim text).data.count '\n' ∧
    (∃ (header : String) (rest : List String),
      (trim text).data = ['\n'].intercalate ((header :: rest).map String.data) ∧
      (∀ l ∈ header :: rest, '\n' ∉ l.data) ∧
      rest.length = (trim text).data.count '\n' ∧
      parseTSV text = rest.map (recordOfLine (split '\t' header)) ∧
      ((((split '\t' header).map trim).Nodup ∧
          ∀ k ∈ split '\t' header, trim k ≠ "__proto__") →
        parseTSV text = rest.map (fun line =>
          (split '\t' header).enum.map
            (fun p => (trim p.2, strOr (((split '\t' line).get? p.1).map trim) ""))))) ∧
    ((∀ c ∈ text.data, isTrimChar c = true) → parseTSV text = []) ∧
    (∀ blanks : String, (∀ c ∈ blanks.data, isTrimChar c = true) →
      parseTSV (text ++ blanks) = parseTSV text) ∧
    parseTSV "" = [] := by
  have hlen : (linesOf text).length = (trim text).data.count '\n' + 1 := by
    unfold linesOf split
    rw [List.length_map, splitChars_length]
  have hdata : (linesOf text).map String.data = splitChars '\n' (trim text).data :=
    map_data_split '\n' (trim text)
  refine ⟨trimChars_spec text.data, ?_, ?_, ?_, ?_, by decide⟩
  · unfold parseTSV
    cases hl : linesOf text with
    | nil => rw [hl] at hlen; simp at hlen
    | cons header rest =>
      rw [hl] at hlen
      simp only [List.length_map]
      simpa using hlen
  · cases hl : linesOf text with
    | nil => rw [hl] at hlen; simp at hlen
    | cons header rest =>
      rw [hl] at hlen hdata
      have hparse : parseTSV text = rest.map (recordOfLine (split '\t' header)) := by
        unfold parseTSV
        rw [hl]
      refine ⟨header, rest, ?_, ?_, by simpa using hlen, hparse, ?_⟩
      · rw [hdata, intercalate_splitChars]
      · intro l hl2
        apply splitChars_no_sep '\n' (trim text).data l.data
        rw [← hdata]
        exact List.mem_map_of_mem String.data hl2
      · intro hclean
        rw [hparse]
        apply List.map_congr_left
        intro line _
        exact (recordOfLine_fields (split '\t' header) line hclean.1 hclean.2).1
  · intro h
    have ht : trim text = "" := by
      unfold trim
      rw [trimChars_eq_nil _ h]
    unfold parseTSV linesOf
    rw [ht]
    decide
  · intro blanks h
    have ht : trim (text ++ blanks) = trim text := by
      unfold trim
      rw [String.data_append, trimChars_append_blank _ _ h]
    unfold parseTSV linesOf
    rw [ht]

/-- Instance of C7: a header, two data lines and trailing blank lines give two records, in
line order. -/
theorem parseTSV_one_record_per_data_line_witness :
    (parseTSV "Country\tJobTitle\nFrance\tEngineer\nSpain\tNurse\n\n  \n").length = 2 ∧
    parseTSV "Country\tJobTitle\nFrance\tEngineer\nSpain\tNurse\n\n  \n" =
      [[("Country", "France"), ("JobTitle", "Engineer")],
       [("Country", "Spain"), ("JobTitle", "Nurse")]] :=
  ⟨(parseTSV_one_record_per_data_line
      "Country\tJobTitle\nFrance\tEngineer\nSpain\tNurse\n\n  \n").2.1.trans (by decide),
    by decide⟩

/-- C2, failing input. For the single job titled "constructor" the read of
`titleCount["constructor"]` finds the function inherited from `Object.prototype`, so the
count reported for the most common title is a string (the function text followed by "1"),
not the number 1 of records with that title. -/
theorem renderFunFacts_constructor_title_count_is_text :
    renderFunFactsForCountry asciiLower
        [[("Country", "France"), ("JobTitle", "constructor")]] [] "france" =
      Except.ok (FunFacts.facts
        ("constructor", CountVal.text (Inherited.method "constructor") 1) "N/A" "" 1
        ⟨[("constructor", CountVal.text (Inherited.method "constructor") 1)],
          CountVal.text (Inherited.method "constructor") 1⟩) := by
  decide

/-- The example of the specification: on the titles "A", "B", "A" the most common title is
("A", 2), the total is 3 and the top list is [("A", 2), ("B", 1)]. -/
theorem renderFunFacts_example :
    renderFunFactsForCountry asciiLower
        [[("JobTitle", "A")], [("JobTitle", "B")], [("JobTitle", "A")]] [] "" =
      Except.ok (FunFacts.facts ("A", CountVal.num 2) "N/A" "" 3
        ⟨[("A", CountVal.num 2), ("B", CountVal.num 1)], CountVal.num 2⟩) := by
  decide

/-- C6, failing input. A header field named `__proto__` gives no field of the record: the
assignment reaches the inherited setter and is ignored, so the field set of the record is
not the set of header names. -/
theorem parseTSV_proto_header_field_missing :
    parseTSV "__proto__\tCountry\nx\tFrance" = [[("Country", "France")]] := by
  decide

/-- A regular table: fields are trimmed and a missing trailing field is the empty string. -/
theorem parseTSV_example :
    parseTSV "Country\tJobTitle\nFrance \t Engineer\nSpain\n\n" =
      [[("Country", "France"), ("JobTitle", "Engineer")],
       [("Country", "Spain"), ("JobTitle", "")]] := by
  decide

/-- C8, failing input. The code "toString" is not in the rate table, yet
`currencyRates["toString"]` is the function inherited from `Object.prototype`, which is
truthy: the factor is not 1 and the product is `NaN`, whatever the amount. With the toy
number operations the amount "100" is shown as "$NaN", and as "$100" for the code USD. -/
theorem convertToUSD_inherited_code_is_nan :
    (∀ (ops : NumOps) (amount : String),
      convertToUSD ops amount "toString" = "$" ++ ops.toLocaleString ops.nan) ∧
    convertToUSD toyOps "100" "toString" = "$NaN" ∧
    convertToUSD toyOps "100" "USD" = "$100" := by
  refine ⟨?_, by decide, by decide⟩
  intro ops amount
  have h : rateOrOne "toString" = RateVal.inherited "toString" := by decide
  simp only [convertToUSD, h, usdValue]

/-- C9, failing input. With the single job of country "France" titled `__proto__` and an
empty job query, `countryJobs` is not empty but the histogram is: the increment is ignored
by the inherited setter, `mostCommonTitle` is `undefined` and reading its element 0 throws a
`TypeError`. -/
theorem updateUI_proto_title_throws :
    updateUI asciiLower toyOps [[("Country", "France"), ("JobTitle", "__proto__")]] []
        "France" "" =
      UIResult.summary SalaryBox.noData ("", "France") (Except.error JSError.typeError) := by
  decide

/-- C10, failing input. For a job without a `JobTitle` field `renderFunFactsForCountry`
counts the title `''` while `renderTopJobsChart` counts the key "undefined": the most common
title and the first entry of the top list differ. -/
theorem mostCommonTitle_differs_from_chart_without_title :
    mostCommonTitle [[("Country", "France")]] = some ("", CountVal.num 1) ∧
    (chartTop [[("Country", "France")]]).head? = some ("undefined", CountVal.num 1) := by
  decide

end JobExplorer
